import Mathlib

/-!
Shallow embedding of the DIAMONDS result post-processing module
(source/Results.cpp) and proofs about it.

The C++ code operates on IEEE double arrays (Eigen ArrayXd / ArrayXXd);
we model the real arithmetic exactly, over an arbitrary linear ordered
field so that the same definitions can be instantiated at ℚ (for
concrete, executable evaluations) and at ℝ (where the posterior weights
genuinely involve the exponential function).  Reads that the C++ code
performs out of bounds, or from uninitialized Eigen storage, are
undefined behaviour and are modelled by Option.none.
-/

variable {α : Type*} [LinearOrderedField α]

/-- The largest finite IEEE-754 double, DBL_MAX = (2^53 - 1) · 2^971,
as an exact value of the field. -/
def DBL_MAX : α := (2 ^ 53 - 1) * 2 ^ 971

/-- The in-band flag value -DBL_MAX that Results::parameterEstimation
writes into duplicate parameter slots (Results.cpp line 143). -/
def sentinelValue : α := -DBL_MAX

/-- Sum of the weights (second components) of the entries of a
(parameter value, marginal probability) list.  Models the running sums
over the Eigen array marginalDistribution. -/
def wsum : List (α × α) → α
  | [] => 0
  | p :: rest => p.2 + wsum rest

/-- Sum of value · weight over a (parameter value, marginal probability)
list; this is exactly the expression
(parameterComponent.cwiseProduct(marginalDistribution)).sum() of
Results.cpp line 187. -/
def dsum : List (α × α) → α
  | [] => 0
  | p :: rest => p.1 * p.2 + dsum rest

/-- Total weight of the entries whose parameter value equals x: the
probability mass the inner loop of Results.cpp lines 136-148 merges into
the representative entry of value x. -/
def sumEqVal (x : α) : List (α × α) → α
  | [] => 0
  | p :: rest => (if p.1 = x then p.2 else 0) + sumEqVal x rest

/-- Number of entries whose parameter value equals x: the amount by
which NduplicateParameterComponents grows while the inner loop of
Results.cpp lines 136-148 processes a representative of value x. -/
def countEqVal (x : α) : List (α × α) → ℕ
  | [] => 0
  | p :: rest => (if p.1 = x then 1 else 0) + countEqVal x rest

/-- Effect of the inner loop of Results.cpp lines 136-148 on the part of
the arrays after the representative entry: every entry whose parameter
value equals x becomes (-DBL_MAX, 0) (lines 143-145); the others are
untouched. -/
def flagEqVal (x : α) (ps : List (α × α)) : List (α × α) :=
  ps.map fun p => if p.1 = x then (sentinelValue, 0) else p

/-- Duplicate-merging double loop of Results.cpp lines 128-150, on the
(parameterComponent, marginalDistribution) pairs, with the running
NduplicateParameterComponents counter.  The outer loop index j walks the
list head by head; a head equal to -DBL_MAX is skipped (line 132);
otherwise the inner loop immediately merges every later entry of equal
value into the head (lines 136-148) before the outer loop advances.
The first argument is structural fuel; mergePass supplies fuel equal to
the list length, which is exactly the number of outer steps taken. -/
def mergePassF : ℕ → List (α × α) → ℕ → List (α × α) × ℕ
  | 0, ps, cnt => (ps, cnt)
  | _ + 1, [], cnt => ([], cnt)
  | fuel + 1, p :: rest, cnt =>
    if p.1 = sentinelValue then
      let r := mergePassF fuel rest cnt
      (p :: r.1, r.2)
    else
      let r := mergePassF fuel (flagEqVal p.1 rest) (cnt + countEqVal p.1 rest)
      ((p.1, p.2 + sumEqVal p.1 rest) :: r.1, r.2)

/-- The duplicate-merging pass (Results.cpp lines 128-150) run on a
whole (parameter, probability) list, returning the updated arrays and
NduplicateParameterComponents. -/
def mergePass (ps : List (α × α)) : List (α × α) × ℕ := mergePassF ps.length ps 0

/-- The entries the compaction loop of Results.cpp lines 162-173
actually writes: those whose parameter value differs from -DBL_MAX, in
order. -/
def dropSentinels : List (α × α) → List (α × α)
  | [] => []
  | p :: rest => if p.1 = sentinelValue then dropSentinels rest else p :: dropSentinels rest

/-- Compaction loop of Results.cpp lines 162-173: copy the non-flagged
entries into fresh arrays of declared size (Niterations - cnt), stopping
once that many have been written. -/
def compactKept (ps : List (α × α)) (cnt : ℕ) : List (α × α) :=
  (dropSentinels ps).take (ps.length - cnt)

/-- Compaction step of Results.cpp lines 155-180.  When no duplicate was
flagged the block is skipped.  Otherwise the copies have declared length
Niterations - cnt; if fewer entries are written (possible only when a
genuine input value equals -DBL_MAX), the remaining coefficients of the
fresh Eigen arrays are uninitialized memory that the subsequent code
reads, which we model as none. -/
def compactPass (ps : List (α × α)) (cnt : ℕ) : Option (List (α × α)) :=
  if cnt = 0 then some ps
  else if (compactKept ps cnt).length = ps.length - cnt then some (compactKept ps cnt)
  else none

/-- Median loop of Results.cpp lines 191-204: starting from
totalProbability = 0, repeatedly set medianParameter to the current
value and add the current probability, while the accumulated probability
is below 0.5.  Returns (medianParameter, final totalProbability); the
final totalProbability is NOT reset before the credible-interval loop of
line 237 and is returned so that the pipeline can pass it on.  Running
past the end of the arrays is an out-of-bounds read, modelled none. -/
def medianLoop : List α → List α → α → Option (α × α)
  | x :: xs, w :: ws, t =>
    if t + w < 1 / 2 then medianLoop xs ws (t + w) else some (x, t + w)
  | _, _, _ => none

/-- Eigen maxCoeff(&max) visitor on a nonempty coefficient list: the
running best is replaced only when a strictly larger value appears, so
the first occurrence of the maximum wins.  Arguments: remaining list,
current best value, its index, index of the next element. -/
def maxCoeffGo : List α → α → ℕ → ℕ → α × ℕ
  | [], best, bestIdx, _ => (best, bestIdx)
  | v :: vs, best, bestIdx, i =>
    if best < v then maxCoeffGo vs v i (i + 1) else maxCoeffGo vs best bestIdx (i + 1)

/-- maximumMarginal = marginalDistribution.maxCoeff(&max) of Results.cpp
line 213, returning (value, index); none on an empty array. -/
def maxCoeffL : List α → Option (α × ℕ)
  | [] => none
  | v :: vs => some (maxCoeffGo vs v 0 1)

/-- Eigen minCoeff(&min) visitor, strict-comparison analogue of
maxCoeffGo: the first occurrence of the minimum wins. -/
def minCoeffGo : List α → α → ℕ → ℕ → α × ℕ
  | [], best, bestIdx, _ => (best, bestIdx)
  | v :: vs, best, bestIdx, i =>
    if v < best then minCoeffGo vs v i (i + 1) else minCoeffGo vs best bestIdx (i + 1)

/-- marginalDifferenceLeft.minCoeff(&min) of Results.cpp line 246. -/
def minCoeffL : List α → Option (α × ℕ)
  | [] => none
  | v :: vs => some (minCoeffGo vs v 0 1)

/-- maximumParameter = parameterComponent(max) of Results.cpp line 214,
the mode value reported in column 2. -/
def modeValueOf (xs ws : List α) : Option α :=
  (maxCoeffL ws).map fun r => xs.getD r.2 0

/-- Credible-interval loop of Results.cpp lines 237-256 over the merged
arrays xs (parameterComponent) and ws (marginalDistribution), with mx
the mode index.  The loop keeps the totalProbability left over from the
median loop for its first test (line 237; it is reset only inside the
body, line 239).  Each round reads marginalDistribution(max+stepRight)
and parameterComponent(max+stepRight) -- an out-of-bounds read, modelled
none, when max+stepRight reaches the array length -- then finds in the
left part (up to the mode) the entry whose probability is closest to the
right limit (lines 242-248), sums the probability over the candidate
range (lines 250-253) and advances stepRight.  On exit it returns the
last (limitParameterLeft, limitParameterRight) set, which are
uninitialized doubles -- modelled none -- if the body never ran.  The
fuel argument is structural; the pipeline passes ws.length + 1, which
the out-of-bounds guard keeps from ever being exhausted. -/
def ciLoopF (xs ws : List α) (mx : ℕ) (credibleLevel : α) :
    ℕ → α → ℕ → Option α → Option α → Option (Option α × Option α)
  | 0, _, _, _, _ => none
  | fuel + 1, total, stepRight, limL, limR =>
    if total < credibleLevel / 100 then
      match ws.get? (mx + stepRight), xs.get? (mx + stepRight) with
      | some limitProbabilityRight, some limitParameterRight =>
        match minCoeffL ((ws.take (mx + 1)).map fun q => |q - limitProbabilityRight|) with
        | some mn =>
          ciLoopF xs ws mx credibleLevel fuel
            (((ws.drop mn.2).take (mx + stepRight + 1 - mn.2)).sum)
            (stepRight + 1) (some (xs.getD mn.2 0)) (some limitParameterRight)
        | none => none
      | _, _ => none
    else some (limL, limR)

/-- Functions::sortElements (called at Results.cpp line 122; its body
lives outside this module).  Modelled from the spec: sort the
parameterComponent values in increasing order carrying the matching
marginalDistribution entries along, which on (value, probability) pairs
is a stable sort by first component. -/
def sortPairs (ps : List (α × α)) : List (α × α) :=
  List.insertionSort (fun p q => p.1 ≤ q.1) ps

/-- One iteration of the per-parameter loop of
Results::parameterEstimation (Results.cpp lines 113-266), on one row of
the posterior sample (xs) and the posterior weights (ws), producing the
row (mean, median, mode, lower CI offset, upper CI offset) of the
estimate matrix.  The two CI columns are Option because the C++ leaves
limitParameterLeft/limitParameterRight uninitialized when the
credible-interval loop body never runs; the outer Option records
undefined behaviour (out-of-bounds or uninitialized-memory reads). -/
def parameterEstimationDim (xs ws : List α) (credibleLevel : α) :
    Option (α × α × α × Option α × Option α) :=
  let sorted := sortPairs (xs.zip ws)
  let merged := mergePass sorted
  match compactPass merged.1 merged.2 with
  | none => none
  | some qs =>
    let mean := dsum qs
    match medianLoop (qs.map Prod.fst) (qs.map Prod.snd) 0 with
    | none => none
    | some md =>
      match maxCoeffL (qs.map Prod.snd) with
      | none => none
      | some mc =>
        let mode := (qs.map Prod.fst).getD mc.2 0
        match ciLoopF (qs.map Prod.fst) (qs.map Prod.snd) mc.2 credibleLevel
            ((qs.map Prod.snd).length + 1) md.2 1 none none with
        | none => none
        | some lims =>
          some (mean, md.1, mode, lims.1.map (fun l => mode - l), lims.2.map (fun r => r - mode))

/-- Fields of the NestedSampler object that Results reads
(posteriorSample rows, logWeightOfPosteriorSample, logEvidence). -/
structure NestedSamplerState where
  posteriorSample : List (List ℝ)
  logWeightOfPosteriorSample : List ℝ
  logEvidence : ℝ

/-- Results::posteriorProbability (Results.cpp lines 64-70):
logPosteriorDistribution = logWeightOfPosteriorSample - logZ, then
componentwise exp. -/
noncomputable def posteriorProbabilityList (logW : List ℝ) (logZ : ℝ) : List ℝ :=
  logW.map fun lw => Real.exp (lw - logZ)

/-- Results::posteriorProbability as an operation on the sampler state:
it builds the new array from the state and performs no write to the
sampler. -/
noncomputable def posteriorProbabilityS (s : NestedSamplerState) :
    List ℝ × NestedSamplerState :=
  (posteriorProbabilityList s.logWeightOfPosteriorSample s.logEvidence, s)

/-- Results::parameterEstimation (Results.cpp lines 98-270) as an
operation on the sampler state: obtain the posterior distribution (line
104), then process each row of posteriorSample on local copies
(parameterComponent and marginalDistribution are copy-assigned at lines
115-116); no step writes to the sampler state. -/
noncomputable def parameterEstimationS (s : NestedSamplerState) (credibleLevel : ℝ) :
    Option (List (ℝ × ℝ × ℝ × Option ℝ × Option ℝ)) × NestedSamplerState :=
  let pr := posteriorProbabilityS s
  (pr.2.posteriorSample.mapM (fun row => parameterEstimationDim row pr.1 credibleLevel), pr.2)

/-- Stream precision that each Results output routine installs before
writing numeric values: writeLogLikelihoodToFile (line 329),
writeEvidenceInformationToFile (line 362),
writePosteriorProbabilityToFile (line 399) and
writeParameterEstimationToFile (line 448) all execute
outputFile << scientific << setprecision(9). -/
def outputPrecision : ℕ := 9

/-- Number of decimal digits of a positive natural number, computed with
structural fuel (the first argument; any fuel at least n is enough). -/
def digitCountF : ℕ → ℕ → ℕ
  | 0, _ => 0
  | fuel + 1, n => if n < 10 then 1 else digitCountF fuel (n / 10) + 1

/-- Number of decimal digits of a positive natural number. -/
def decimalDigitCount (n : ℕ) : ℕ := digitCountF n n

/-- Decimal exponent of a nonzero rational in scientific notation: the
unique e with 10^e ≤ |q| < 10^(e+1). -/
def sciExponent (q : ℚ) : ℤ := Int.log 10 |q|

/-- Scaled mantissa printed by C++ scientific formatting with precision
p: the integer nearest to |q| · 10^p / 10^e, whose decimal digits are the
leading digit and the p digits after the decimal point. -/
def sciMantissaRaw (q : ℚ) (p : ℕ) : ℤ :=
  round (|q| * 10 ^ (p : ℤ) / 10 ^ sciExponent q)

/-- Printed mantissa with the rounding carry applied: when rounding
pushes the mantissa up to 10^(p+1) the formatter prints 1.00...0 and
increments the exponent. -/
def sciMantissa (q : ℚ) (p : ℕ) : ℤ :=
  if sciMantissaRaw q p = 10 ^ (p + 1) then 10 ^ p else sciMantissaRaw q p

/-- Number of significant decimal digits printed for the nonzero value q
by scientific formatting with precision p. -/
def sciSigDigits (q : ℚ) (p : ℕ) : ℕ := decimalDigitCount (sciMantissa q p).toNat

/-- Unfolding lemma: flagging a cons cell. -/
theorem flagEqVal_cons (x : ℚ) (p : ℚ × ℚ) (rest : List (ℚ × ℚ)) :
    flagEqVal x (p :: rest) =
      (if p.1 = x then (sentinelValue, 0) else p) :: flagEqVal x rest := rfl

/-- Unfolding lemma: weight sum of a cons cell. -/
theorem wsum_cons (p : ℚ × ℚ) (rest : List (ℚ × ℚ)) :
    wsum (p :: rest) = p.2 + wsum rest := rfl

/-- Unfolding lemma: value-weighted sum of a cons cell. -/
theorem dsum_cons (p : ℚ × ℚ) (rest : List (ℚ × ℚ)) :
    dsum (p :: rest) = p.1 * p.2 + dsum rest := rfl

/-- Unfolding lemma: mass at a value, on a cons cell. -/
theorem sumEqVal_cons (x : ℚ) (p : ℚ × ℚ) (rest : List (ℚ × ℚ)) :
    sumEqVal x (p :: rest) = (if p.1 = x then p.2 else 0) + sumEqVal x rest := rfl

/-- Unfolding lemma: count of a value, on a cons cell. -/
theorem countEqVal_cons (x : ℚ) (p : ℚ × ℚ) (rest : List (ℚ × ℚ)) :
    countEqVal x (p :: rest) = (if p.1 = x then 1 else 0) + countEqVal x rest := rfl

/-- Unfolding lemma: dropSentinels on a cons cell. -/
theorem dropSentinels_cons (p : ℚ × ℚ) (rest : List (ℚ × ℚ)) :
    dropSentinels (p :: rest) =
      if p.1 = sentinelValue then dropSentinels rest else p :: dropSentinels rest := rfl

/-- The inner-loop flagging does not change the list length. -/
theorem flagEqVal_length (x : ℚ) (ps : List (ℚ × ℚ)) :
    (flagEqVal x ps).length = ps.length := by
  simp [flagEqVal]

/-- Flagging moves exactly the mass of the x-valued entries out of the list. -/
theorem wsum_flagEqVal (x : ℚ) (ps : List (ℚ × ℚ)) :
    wsum (flagEqVal x ps) + sumEqVal x ps = wsum ps := by
  induction ps with
  | nil => simp [flagEqVal, wsum, sumEqVal]
  | cons p rest ih =>
    rw [flagEqVal_cons, wsum_cons, wsum_cons, sumEqVal_cons]
    by_cases hp : p.1 = x
    · rw [if_pos hp, if_pos hp]
      simp only []
      linarith
    · rw [if_neg hp, if_neg hp]
      linarith

/-- Flagging moves exactly x times the mass of the x-valued entries out of
the value-weighted sum. -/
theorem dsum_flagEqVal (x : ℚ) (ps : List (ℚ × ℚ)) :
    dsum (flagEqVal x ps) + x * sumEqVal x ps = dsum ps := by
  induction ps with
  | nil => simp [flagEqVal, dsum, sumEqVal]
  | cons p rest ih =>
    rw [flagEqVal_cons, dsum_cons, dsum_cons, sumEqVal_cons]
    by_cases hp : p.1 = x
    · rw [if_pos hp, if_pos hp, hp]
      simp only []
      linarith
    · rw [if_neg hp, if_neg hp]
      linarith

/-- Flagging the x-valued entries does not change the mass carried by any
other non-sentinel value v. -/
theorem sumEqVal_flagEqVal (x v : ℚ) (hvx : v ≠ x) (hvs : v ≠ sentinelValue)
    (ps : List (ℚ × ℚ)) : sumEqVal v (flagEqVal x ps) = sumEqVal v ps := by
  induction ps with
  | nil => simp [flagEqVal, sumEqVal]
  | cons p rest ih =>
    by_cases hp : p.1 = x
    · have h2 : p.1 ≠ v := fun h => hvx (h ▸ hp)
      rw [flagEqVal_cons, if_pos hp, sumEqVal_cons, sumEqVal_cons, ih,
        if_neg (show ¬ ((sentinelValue, (0 : ℚ)) : ℚ × ℚ).1 = v from fun h => hvs h.symm),
        if_neg h2]
    · rw [flagEqVal_cons, if_neg hp, sumEqVal_cons, sumEqVal_cons, ih]

/-- Flagging turns the x-valued entries into sentinel entries and leaves the
sentinel count of the others alone. -/
theorem countEqVal_sentinel_flagEqVal (x : ℚ) (hx : x ≠ sentinelValue)
    (ps : List (ℚ × ℚ)) :
    countEqVal sentinelValue (flagEqVal x ps) =
      countEqVal sentinelValue ps + countEqVal x ps := by
  induction ps with
  | nil => simp [flagEqVal, countEqVal]
  | cons p rest ih =>
    by_cases hp : p.1 = x
    · have hps : p.1 ≠ sentinelValue := fun h => hx (hp ▸ h)
      rw [flagEqVal_cons, if_pos hp, countEqVal_cons, countEqVal_cons, countEqVal_cons, ih,
        if_pos (show ((sentinelValue, (0 : ℚ)) : ℚ × ℚ).1 = sentinelValue from rfl),
        if_neg hps, if_pos hp]
      omega
    · rw [flagEqVal_cons, if_neg hp, countEqVal_cons, countEqVal_cons, countEqVal_cons, ih,
        if_neg hp]
      omega

/-- Flagging preserves the all-sentinels-weightless property. -/
theorem sentZero_flagEqVal (x : ℚ) (ps : List (ℚ × ℚ))
    (h : ∀ p ∈ ps, p.1 = sentinelValue → p.2 = 0) :
    ∀ p ∈ flagEqVal x ps, p.1 = sentinelValue → p.2 = 0 := by
  intro p hp hps
  rcases List.mem_map.mp hp with ⟨q, hq, hqe⟩
  by_cases hqx : q.1 = x
  · rw [if_pos hqx] at hqe
    rw [← hqe]
  · rw [if_neg hqx] at hqe
    exact h p (hqe ▸ hq) hps

/-- A first component surviving the flagging as a non-sentinel differs
from the flagged value x. -/
theorem flagEqVal_fst_ne (x v : ℚ) (ps : List (ℚ × ℚ))
    (hv : v ∈ (flagEqVal x ps).map Prod.fst) (hvs : v ≠ sentinelValue) : v ≠ x := by
  rcases List.mem_map.mp hv with ⟨q, hq, hqe⟩
  rcases List.mem_map.mp hq with ⟨r, hr, hre⟩
  by_cases hrx : r.1 = x
  · rw [if_pos hrx] at hre
    rw [← hre] at hqe
    exact absurd hqe.symm hvs
  · rw [if_neg hrx] at hre
    rw [hre] at hrx
    rw [hqe] at hrx
    exact hrx

/-- Membership in the compacted entries: kept iff present and not a
sentinel. -/
theorem mem_dropSentinels (q : ℚ × ℚ) (l : List (ℚ × ℚ)) :
    q ∈ dropSentinels l ↔ q ∈ l ∧ q.1 ≠ sentinelValue := by
  induction l with
  | nil => simp [dropSentinels]
  | cons p rest ih =>
    rw [dropSentinels_cons]
    by_cases hp : p.1 = sentinelValue
    · rw [if_pos hp, ih]
      simp only [List.mem_cons]
      constructor
      · rintro ⟨h1, h2⟩
        exact ⟨Or.inr h1, h2⟩
      · rintro ⟨h1 | h1, h2⟩
        · rw [h1] at h2
          exact absurd hp h2
        · exact ⟨h1, h2⟩
    · rw [if_neg hp]
      simp only [List.mem_cons, ih]
      constructor
      · rintro (h1 | ⟨h1, h2⟩)
        · refine ⟨Or.inl h1, ?_⟩
          rw [h1]
          exact hp
        · exact ⟨Or.inr h1, h2⟩
      · rintro ⟨h1 | h1, h2⟩
        · exact Or.inl h1
        · exact Or.inr ⟨h1, h2⟩

/-- Dropping the sentinels removes exactly countEqVal sentinelValue
entries. -/
theorem dropSentinels_length (l : List (ℚ × ℚ)) :
    (dropSentinels l).length + countEqVal sentinelValue l = l.length := by
  induction l with
  | nil => simp [dropSentinels, countEqVal]
  | cons p rest ih =>
    rw [dropSentinels_cons, countEqVal_cons]
    by_cases hp : p.1 = sentinelValue
    · rw [if_pos hp, if_pos hp, List.length_cons]
      omega
    · rw [if_neg hp, if_neg hp, List.length_cons, List.length_cons]
      omega

/-- When every sentinel entry is weightless, dropping them preserves the
total mass. -/
theorem wsum_dropSentinels (l : List (ℚ × ℚ))
    (h : ∀ p ∈ l, p.1 = sentinelValue → p.2 = 0) :
    wsum (dropSentinels l) = wsum l := by
  induction l with
  | nil => simp [dropSentinels]
  | cons p rest ih =>
    have hr : ∀ q ∈ rest, q.1 = sentinelValue → q.2 = 0 :=
      fun q hq => h q (List.mem_cons_of_mem p hq)
    rw [dropSentinels_cons, wsum_cons]
    by_cases hp : p.1 = sentinelValue
    · rw [if_pos hp, ih hr, h p (List.mem_cons_self p rest) hp]
      ring
    · rw [if_neg hp, wsum_cons, ih hr]

/-- When every sentinel entry is weightless, dropping them preserves the
value-weighted sum. -/
theorem dsum_dropSentinels (l : List (ℚ × ℚ))
    (h : ∀ p ∈ l, p.1 = sentinelValue → p.2 = 0) :
    dsum (dropSentinels l) = dsum l := by
  induction l with
  | nil => simp [dropSentinels]
  | cons p rest ih =>
    have hr : ∀ q ∈ rest, q.1 = sentinelValue → q.2 = 0 :=
      fun q hq => h q (List.mem_cons_of_mem p hq)
    rw [dropSentinels_cons, dsum_cons]
    by_cases hp : p.1 = sentinelValue
    · rw [if_pos hp, ih hr, h p (List.mem_cons_self p rest) hp]
      ring
    · rw [if_neg hp, dsum_cons, ih hr]

/-- A list with no sentinel entry at all is untouched by dropSentinels. -/
theorem dropSentinels_eq_self (l : List (ℚ × ℚ))
    (h : ∀ p ∈ l, p.1 ≠ sentinelValue) : dropSentinels l = l := by
  induction l with
  | nil => rfl
  | cons p rest ih =>
    rw [dropSentinels_cons, if_neg (h p (List.mem_cons_self p rest)),
      ih (fun q hq => h q (List.mem_cons_of_mem p hq))]

/-- A value count is zero exactly when no entry carries the value. -/
theorem countEqVal_eq_zero (x : ℚ) (l : List (ℚ × ℚ)) :
    countEqVal x l = 0 ↔ ∀ p ∈ l, p.1 ≠ x := by
  induction l with
  | nil => simp [countEqVal]
  | cons p rest ih =>
    rw [countEqVal_cons]
    by_cases hp : p.1 = x
    · rw [if_pos hp]
      simp only [List.mem_cons]
      constructor
      · intro h
        omega
      · intro h
        exact absurd hp (h p (Or.inl rfl))
    · rw [if_neg hp]
      simp only [List.mem_cons, Nat.zero_add]
      rw [ih]
      constructor
      · intro h q hq
        rcases hq with h3 | h3
        · exact h3 ▸ hp
        · exact h q h3
      · intro h q hq
        exact h q (Or.inr hq)

/-- Unfolding lemma: one outer step of the merging loop on a sentinel
head (Results.cpp line 132: the j loop skips flagged entries). -/
theorem mergePassF_cons_sent (fuel : ℕ) (p : ℚ × ℚ) (rest : List (ℚ × ℚ)) (cnt : ℕ)
    (hp : p.1 = sentinelValue) :
    mergePassF (fuel + 1) (p :: rest) cnt =
      (p :: (mergePassF fuel rest cnt).1, (mergePassF fuel rest cnt).2) := by
  simp [mergePassF, hp]

/-- Unfolding lemma: one outer step of the merging loop on a live head
(Results.cpp lines 136-148: the head absorbs the mass of all later equal
entries, which get flagged). -/
theorem mergePassF_cons_live (fuel : ℕ) (p : ℚ × ℚ) (rest : List (ℚ × ℚ)) (cnt : ℕ)
    (hp : ¬ p.1 = sentinelValue) :
    mergePassF (fuel + 1) (p :: rest) cnt =
      ((p.1, p.2 + sumEqVal p.1 rest) ::
          (mergePassF fuel (flagEqVal p.1 rest) (cnt + countEqVal p.1 rest)).1,
        (mergePassF fuel (flagEqVal p.1 rest) (cnt + countEqVal p.1 rest)).2) := by
  simp [mergePassF, hp]

/-- The merging pass never changes the array length (it only overwrites
entries in place). -/
theorem mergePassF_length (fuel : ℕ) :
    ∀ (ps : List (ℚ × ℚ)) (cnt : ℕ), (mergePassF fuel ps cnt).1.length = ps.length := by
  induction fuel with
  | zero => intro ps cnt; rfl
  | succ f ih =>
    intro ps cnt
    cases ps with
    | nil => rfl
    | cons p rest =>
      by_cases hp : p.1 = sentinelValue
      · rw [mergePassF_cons_sent f p rest cnt hp]
        simp [ih]
      · rw [mergePassF_cons_live f p rest cnt hp]
        simp [ih, flagEqVal_length]

/-- The merging pass preserves the total probability mass (line 144 adds
to the representative exactly what line 145 zeroes out). -/
theorem mergePassF_wsum (fuel : ℕ) :
    ∀ (ps : List (ℚ × ℚ)) (cnt : ℕ), wsum (mergePassF fuel ps cnt).1 = wsum ps := by
  induction fuel with
  | zero => intro ps cnt; rfl
  | succ f ih =>
    intro ps cnt
    cases ps with
    | nil => rfl
    | cons p rest =>
      by_cases hp : p.1 = sentinelValue
      · rw [mergePassF_cons_sent f p rest cnt hp, wsum_cons, wsum_cons, ih]
      · rw [mergePassF_cons_live f p rest cnt hp, wsum_cons, wsum_cons, ih]
        have := wsum_flagEqVal p.1 rest
        simp only []
        linarith

/-- The merging pass preserves the value-weighted sum: merged mass moves
between entries of equal parameter value. -/
theorem mergePassF_dsum (fuel : ℕ) :
    ∀ (ps : List (ℚ × ℚ)) (cnt : ℕ), dsum (mergePassF fuel ps cnt).1 = dsum ps := by
  induction fuel with
  | zero => intro ps cnt; rfl
  | succ f ih =>
    intro ps cnt
    cases ps with
    | nil => rfl
    | cons p rest =>
      by_cases hp : p.1 = sentinelValue
      · rw [mergePassF_cons_sent f p rest cnt hp, dsum_cons, dsum_cons, ih]
      · rw [mergePassF_cons_live f p rest cnt hp, dsum_cons, dsum_cons, ih]
        have := dsum_flagEqVal p.1 rest
        simp only []
        linarith

/-- The merging pass keeps every sentinel-valued entry weightless, when
they start weightless (freshly flagged entries are zeroed at line 145). -/
theorem mergePassF_sentZero (fuel : ℕ) :
    ∀ (ps : List (ℚ × ℚ)) (cnt : ℕ),
      (∀ p ∈ ps, p.1 = sentinelValue → p.2 = 0) →
      ∀ q ∈ (mergePassF fuel ps cnt).1, q.1 = sentinelValue → q.2 = 0 := by
  induction fuel with
  | zero => intro ps cnt h; exact h
  | succ f ih =>
    intro ps cnt h
    cases ps with
    | nil => intro q hq; exact absurd hq (List.not_mem_nil q)
    | cons p rest =>
      have hrest : ∀ q ∈ rest, q.1 = sentinelValue → q.2 = 0 :=
        fun q hq => h q (List.mem_cons_of_mem p hq)
      by_cases hp : p.1 = sentinelValue
      · rw [mergePassF_cons_sent f p rest cnt hp]
        intro q hq
        rcases List.mem_cons.mp hq with h1 | h1
        · exact h1 ▸ h p (List.mem_cons_self p rest)
        · exact ih rest cnt hrest q h1
      · rw [mergePassF_cons_live f p rest cnt hp]
        intro q hq
        rcases List.mem_cons.mp hq with h1 | h1
        · intro hqs
          rw [h1] at hqs
          exact absurd hqs hp
        · exact ih (flagEqVal p.1 rest) (cnt + countEqVal p.1 rest)
            (sentZero_flagEqVal p.1 rest hrest) q h1

/-- Sentinel accounting: the merging pass adds one sentinel entry for
each increment of NduplicateParameterComponents. -/
theorem mergePassF_count (fuel : ℕ) :
    ∀ (ps : List (ℚ × ℚ)) (cnt : ℕ),
      countEqVal sentinelValue (mergePassF fuel ps cnt).1 + cnt =
        countEqVal sentinelValue ps + (mergePassF fuel ps cnt).2 := by
  induction fuel with
  | zero => intro ps cnt; rfl
  | succ f ih =>
    intro ps cnt
    cases ps with
    | nil => rfl
    | cons p rest =>
      by_cases hp : p.1 = sentinelValue
      · rw [mergePassF_cons_sent f p rest cnt hp, countEqVal_cons, countEqVal_cons,
          if_pos hp]
        have := ih rest cnt
        simp only []
        omega
      · rw [mergePassF_cons_live f p rest cnt hp, countEqVal_cons, countEqVal_cons,
          if_neg hp]
        have h1 := ih (flagEqVal p.1 rest) (cnt + countEqVal p.1 rest)
        rw [countEqVal_sentinel_flagEqVal p.1 hp rest] at h1
        simp only []
        omega

/-- Every entry of the merged arrays is a sentinel or carries one of the
original parameter values. -/
theorem mergePassF_mem_fst (fuel : ℕ) :
    ∀ (ps : List (ℚ × ℚ)) (cnt : ℕ),
      ∀ q ∈ (mergePassF fuel ps cnt).1,
        q.1 = sentinelValue ∨ q.1 ∈ ps.map Prod.fst := by
  induction fuel with
  | zero =>
    intro ps cnt q hq
    exact Or.inr (List.mem_map.mpr ⟨q, hq, rfl⟩)
  | succ f ih =>
    intro ps cnt
    cases ps with
    | nil => intro q hq; exact absurd hq (List.not_mem_nil q)
    | cons p rest =>
      by_cases hp : p.1 = sentinelValue
      · rw [mergePassF_cons_sent f p rest cnt hp]
        intro q hq
        rcases List.mem_cons.mp hq with h1 | h1
        · exact Or.inl (h1 ▸ hp)
        · rcases ih rest cnt q h1 with h2 | h2
          · exact Or.inl h2
          · exact Or.inr (by rw [List.map_cons]; exact List.mem_cons_of_mem p.1 h2)
      · rw [mergePassF_cons_live f p rest cnt hp]
        intro q hq
        rcases List.mem_cons.mp hq with h1 | h1
        · refine Or.inr ?_
          rw [List.map_cons, h1]
          exact List.mem_cons_self p.1 (rest.map Prod.fst)
        · rcases ih (flagEqVal p.1 rest) (cnt + countEqVal p.1 rest) q h1 with h2 | h2
          · exact Or.inl h2
          · rcases List.mem_map.mp h2 with ⟨r, hr, hre⟩
            rcases List.mem_map.mp hr with ⟨s, hs, hse⟩
            by_cases hsx : s.1 = p.1
            · rw [if_pos hsx] at hse
              rw [← hse] at hre
              exact Or.inl hre.symm
            · rw [if_neg hsx] at hse
              refine Or.inr ?_
              rw [List.map_cons]
              refine List.mem_cons_of_mem p.1 (List.mem_map.mpr ⟨s, hs, ?_⟩)
              rw [hse, hre]

/-- After a full merging pass (fuel covering the list), the surviving
(non-sentinel) parameter values are pairwise distinct. -/
theorem mergePassF_nodup (fuel : ℕ) :
    ∀ (ps : List (ℚ × ℚ)) (cnt : ℕ), ps.length ≤ fuel →
      ((dropSentinels (mergePassF fuel ps cnt).1).map Prod.fst).Nodup := by
  induction fuel with
  | zero =>
    intro ps cnt h
    have h0 : ps = [] := List.length_eq_zero.mp (Nat.le_zero.mp h)
    rw [h0]
    simp [mergePassF, dropSentinels]
  | succ f ih =>
    intro ps cnt h
    cases ps with
    | nil => simp [mergePassF, dropSentinels]
    | cons p rest =>
      have hlen : rest.length ≤ f := by
        rw [List.length_cons] at h
        omega
      by_cases hp : p.1 = sentinelValue
      · rw [mergePassF_cons_sent f p rest cnt hp, dropSentinels_cons, if_pos hp]
        exact ih rest cnt hlen
      · rw [mergePassF_cons_live f p rest cnt hp, dropSentinels_cons, if_neg hp, List.map_cons]
        refine List.nodup_cons.mpr ⟨?_, ih (flagEqVal p.1 rest) (cnt + countEqVal p.1 rest)
          (by rw [flagEqVal_length]; exact hlen)⟩
        intro hmem
        rcases List.mem_map.mp hmem with ⟨q, hq, hqe⟩
        have hq2 := (mem_dropSentinels q _).mp hq
        rcases mergePassF_mem_fst f (flagEqVal p.1 rest) (cnt + countEqVal p.1 rest) q hq2.1
          with hs | hs
        · exact hq2.2 hs
        · exact flagEqVal_fst_ne p.1 q.1 rest hs hq2.2 hqe

/-- After a full merging pass, every surviving entry carries the total
input mass of its parameter value. -/
theorem mergePassF_weights (fuel : ℕ) :
    ∀ (ps : List (ℚ × ℚ)) (cnt : ℕ), ps.length ≤ fuel →
      ∀ q ∈ dropSentinels (mergePassF fuel ps cnt).1, q.2 = sumEqVal q.1 ps := by
  induction fuel with
  | zero =>
    intro ps cnt h
    have h0 : ps = [] := List.length_eq_zero.mp (Nat.le_zero.mp h)
    rw [h0]
    intro q hq
    exact absurd hq (by simp [mergePassF, dropSentinels])
  | succ f ih =>
    intro ps cnt h
    cases ps with
    | nil =>
      intro q hq
      exact absurd hq (by simp [mergePassF, dropSentinels])
    | cons p rest =>
      have hlen : rest.length ≤ f := by
        rw [List.length_cons] at h
        omega
      by_cases hp : p.1 = sentinelValue
      · rw [mergePassF_cons_sent f p rest cnt hp, dropSentinels_cons, if_pos hp]
        intro q hq
        have hq2 := (mem_dropSentinels q _).mp hq
        rw [ih rest cnt hlen q hq, sumEqVal_cons,
          if_neg (fun h2 => hq2.2 (h2.symm.trans hp))]
        ring
      · rw [mergePassF_cons_live f p rest cnt hp, dropSentinels_cons, if_neg hp]
        intro q hq
        rcases List.mem_cons.mp hq with h1 | h1
        · rw [h1]
          simp only []
          rw [sumEqVal_cons, if_pos rfl]
        · have hq2 := (mem_dropSentinels q _).mp h1
          have hne : q.1 ≠ p.1 := by
            rcases mergePassF_mem_fst f (flagEqVal p.1 rest) (cnt + countEqVal p.1 rest) q hq2.1
              with hs | hs
            · exact absurd hs hq2.2
            · exact flagEqVal_fst_ne p.1 q.1 rest hs hq2.2
          rw [ih (flagEqVal p.1 rest) (cnt + countEqVal p.1 rest)
              (by rw [flagEqVal_length]; exact hlen) q h1,
            sumEqVal_flagEqVal p.1 q.1 hne hq2.2 rest, sumEqVal_cons,
            if_neg (fun h2 => hne h2.symm)]
          ring

/-- The merging loops skip the entries whose parameter value is
-DBL_MAX: such an entry is left in place with value and weight
untouched (lines 132 and 138 of Results.cpp). -/
theorem mergePassF_get_sent (fuel : ℕ) :
    ∀ (ps : List (ℚ × ℚ)) (cnt : ℕ) (k : ℕ) (q : ℚ × ℚ),
      ps.get? k = some q → q.1 = sentinelValue →
      (mergePassF fuel ps cnt).1.get? k = some q := by
  induction fuel with
  | zero => intro ps cnt k q hq hqs; exact hq
  | succ f ih =>
    intro ps cnt k q hq hqs
    cases ps with
    | nil => exact absurd hq (by simp)
    | cons p rest =>
      cases k with
      | zero =>
        have hpq : p = q := by
          rw [List.get?_cons_zero] at hq
          exact Option.some.inj hq
        by_cases hp : p.1 = sentinelValue
        · rw [mergePassF_cons_sent f p rest cnt hp, List.get?_cons_zero, hpq]
        · exact absurd (hpq ▸ hqs) hp
      | succ k =>
        rw [List.get?_cons_succ] at hq
        by_cases hp : p.1 = sentinelValue
        · rw [mergePassF_cons_sent f p rest cnt hp, List.get?_cons_succ]
          exact ih rest cnt k q hq hqs
        · rw [mergePassF_cons_live f p rest cnt hp, List.get?_cons_succ]
          refine ih (flagEqVal p.1 rest) (cnt + countEqVal p.1 rest) k q ?_ hqs
          rw [flagEqVal, List.get?_map, hq]
          simp only [Option.map_some']
          rw [if_neg (fun h2 => hp (h2.symm.trans hqs))]

/-- Dropping sentinels removes exactly the mass carried by sentinel
entries. -/
theorem wsum_dropSentinels_add (l : List (ℚ × ℚ)) :
    wsum (dropSentinels l) + sumEqVal sentinelValue l = wsum l := by
  induction l with
  | nil => simp [dropSentinels, sumEqVal, wsum]
  | cons p rest ih =>
    rw [dropSentinels_cons, sumEqVal_cons, wsum_cons]
    by_cases hp : p.1 = sentinelValue
    · rw [if_pos hp, if_pos hp]
      linarith
    · rw [if_neg hp, if_neg hp, wsum_cons]
      linarith

/-- The compaction loop writes exactly the non-sentinel entries of the
merged arrays: the declared copy size Niterations - cnt is never smaller
than their number, since the merging pass created at least cnt sentinel
entries. -/
theorem compactKept_eq_dropSentinels (ps : List (ℚ × ℚ)) :
    compactKept (mergePass ps).1 (mergePass ps).2 = dropSentinels (mergePass ps).1 := by
  have hdl := dropSentinels_length (mergePass ps).1
  have hc := mergePassF_count ps.length ps 0
  have hl := mergePassF_length ps.length ps 0
  unfold compactKept
  apply List.take_of_length_le
  unfold mergePass at *
  omega

/-- On a posterior sample with no genuine -DBL_MAX component, the
compaction step succeeds and returns exactly the non-sentinel entries of
the merged arrays (in the no-duplicate case the arrays are returned as
they are, and contain no sentinel at all). -/
theorem compactPass_mergePass_eq (ps : List (ℚ × ℚ))
    (hns : ∀ p ∈ ps, p.1 ≠ sentinelValue) :
    compactPass (mergePass ps).1 (mergePass ps).2 =
      some (dropSentinels (mergePass ps).1) := by
  have hzero : countEqVal sentinelValue ps = 0 := (countEqVal_eq_zero _ _).mpr hns
  have hc := mergePassF_count ps.length ps 0
  have hl := mergePassF_length ps.length ps 0
  have hdl := dropSentinels_length (mergePass ps).1
  by_cases hcnt : (mergePass ps).2 = 0
  · have hnos : ∀ q ∈ (mergePass ps).1, q.1 ≠ sentinelValue := by
      apply (countEqVal_eq_zero _ _).mp
      unfold mergePass at *
      omega
    unfold compactPass
    rw [if_pos hcnt, dropSentinels_eq_self _ hnos]
  · unfold compactPass
    rw [if_neg hcnt, compactKept_eq_dropSentinels]
    rw [if_pos ?_]
    unfold mergePass at *
    omega

/-- Unfolding lemma: one iteration of the median loop. -/
theorem medianLoop_cons (x w t : ℚ) (xs ws : List ℚ) :
    medianLoop (x :: xs) (w :: ws) t =
      if t + w < 1 / 2 then medianLoop xs ws (t + w) else some (x, t + w) := rfl

/-- The median loop stops at the first index at which the accumulated
probability reaches one half, and reports the parameter value there;
stated for any starting accumulator below one half that the remaining
mass can push to one half. -/
theorem medianLoop_spec :
    ∀ (xs ws : List ℚ) (t : ℚ), xs.length = ws.length → t < 1 / 2 → 1 / 2 ≤ t + ws.sum →
      ∃ k < ws.length, medianLoop xs ws t = some (xs.getD k 0, t + (ws.take (k + 1)).sum) ∧
        1 / 2 ≤ t + (ws.take (k + 1)).sum ∧
        ∀ j < k, t + (ws.take (j + 1)).sum < 1 / 2 := by
  intro xs
  induction xs with
  | nil =>
    intro ws t hlen ht htot
    have hw : ws = [] := List.length_eq_zero.mp hlen.symm
    rw [hw, List.sum_nil] at htot
    linarith
  | cons x xs ih =>
    intro ws t hlen ht htot
    cases ws with
    | nil => simp at hlen
    | cons w ws =>
      rw [medianLoop_cons]
      by_cases h : t + w < 1 / 2
      · rw [if_pos h]
        have hlen2 : xs.length = ws.length := by simpa using hlen
        have htot2 : 1 / 2 ≤ (t + w) + ws.sum := by
          rw [List.sum_cons] at htot
          linarith
        rcases ih ws (t + w) hlen2 h htot2 with ⟨k, hk, heq, hge, hlt⟩
        refine ⟨k + 1, by simpa using Nat.succ_lt_succ hk, ?_, ?_, ?_⟩
        · rw [List.getD_cons_succ, List.take_succ_cons, List.sum_cons, heq]
          simp only [Option.some.injEq, Prod.mk.injEq]
          exact ⟨trivial, by ring⟩
        · rw [List.take_succ_cons, List.sum_cons]
          linarith
        · intro j hj
          cases j with
          | zero =>
            simp only [List.take_succ_cons, List.take_zero, List.sum_cons, List.sum_nil]
            linarith
          | succ j =>
            have := hlt j (by omega)
            rw [List.take_succ_cons, List.sum_cons]
            linarith
      · rw [if_neg h]
        refine ⟨0, by simp, ?_, ?_, ?_⟩
        · simp
        · simp
          linarith
        · intro j hj
          omega

/-- Unfolding lemma: one step of the Eigen maxCoeff visitor. -/
theorem maxCoeffGo_cons (v b : ℚ) (vs : List ℚ) (bi i : ℕ) :
    maxCoeffGo (v :: vs) b bi i =
      if b < v then maxCoeffGo vs v i (i + 1) else maxCoeffGo vs b bi (i + 1) := rfl

/-- The maxCoeff visitor returns either the seed (when nothing beats it
strictly) or the first entry of the list realising the strict maximum. -/
theorem maxCoeffGo_spec :
    ∀ (l : List ℚ) (b : ℚ) (bi i : ℕ),
      (maxCoeffGo l b bi i = (b, bi) ∧ ∀ a ∈ l, a ≤ b) ∨
      (∃ k < l.length, maxCoeffGo l b bi i = (l.getD k 0, i + k) ∧ b < l.getD k 0 ∧
        (∀ a ∈ l, a ≤ l.getD k 0) ∧ ∀ m < k, l.getD m 0 < l.getD k 0) := by
  intro l
  induction l with
  | nil =>
    intro b bi i
    left
    exact ⟨rfl, by simp⟩
  | cons v vs ih =>
    intro b bi i
    rw [maxCoeffGo_cons]
    by_cases hbv : b < v
    · rw [if_pos hbv]
      rcases ih v i (i + 1) with ⟨heq, hle⟩ | ⟨k, hk, heq, hlt, hle, hfirst⟩
      · right
        refine ⟨0, by simp, ?_, by simpa using hbv, ?_, ?_⟩
        · rw [heq]
          simp
        · intro a ha
          rcases List.mem_cons.mp ha with h1 | h1
          · rw [h1, List.getD_cons_zero]
          · exact le_trans (hle a h1) (by rw [List.getD_cons_zero])
        · intro m hm
          omega
      · right
        refine ⟨k + 1, by simpa using Nat.succ_lt_succ hk, ?_, ?_, ?_, ?_⟩
        · rw [heq]
          simp only [List.getD_cons_succ, Prod.mk.injEq]
          exact ⟨trivial, by omega⟩
        · rw [List.getD_cons_succ]
          exact lt_trans hbv hlt
        · intro a ha
          rw [List.getD_cons_succ]
          rcases List.mem_cons.mp ha with h1 | h1
          · rw [h1]
            exact le_of_lt hlt
          · exact hle a h1
        · intro m hm
          cases m with
          | zero =>
            rw [List.getD_cons_zero, List.getD_cons_succ]
            exact hlt
          | succ m =>
            rw [List.getD_cons_succ, List.getD_cons_succ]
            exact hfirst m (by omega)
    · rw [if_neg hbv]
      have hvb : v ≤ b := le_of_not_lt hbv
      rcases ih b bi (i + 1) with ⟨heq, hle⟩ | ⟨k, hk, heq, hlt, hle, hfirst⟩
      · left
        refine ⟨heq, ?_⟩
        intro a ha
        rcases List.mem_cons.mp ha with h1 | h1
        · exact h1 ▸ hvb
        · exact hle a h1
      · right
        refine ⟨k + 1, by simpa using Nat.succ_lt_succ hk, ?_, ?_, ?_, ?_⟩
        · rw [heq]
          simp only [List.getD_cons_succ, Prod.mk.injEq]
          exact ⟨trivial, by omega⟩
        · rw [List.getD_cons_succ]
          exact hlt
        · intro a ha
          rw [List.getD_cons_succ]
          rcases List.mem_cons.mp ha with h1 | h1
          · rw [h1]
            exact le_of_lt (lt_of_le_of_lt hvb hlt)
          · exact hle a h1
        · intro m hm
          cases m with
          | zero =>
            rw [List.getD_cons_zero, List.getD_cons_succ]
            exact lt_of_le_of_lt hvb hlt
          | succ m =>
            rw [List.getD_cons_succ, List.getD_cons_succ]
            exact hfirst m (by omega)

/-- The sum of the normalized posterior weights equals the sum of the
unnormalized linear weights divided by exp(logZ). -/
theorem posteriorProbabilityList_sum (logW : List ℝ) (logZ : ℝ) :
    (posteriorProbabilityList logW logZ).sum = (logW.map Real.exp).sum / Real.exp logZ := by
  induction logW with
  | nil => simp [posteriorProbabilityList]
  | cons a l ih =>
    simp only [posteriorProbabilityList, List.map_cons, List.sum_cons] at *
    rw [ih, Real.exp_sub, div_add_div_same]

/-- A nonempty list of exponentials has positive sum. -/
theorem sum_map_exp_pos (l : List ℝ) (h : l ≠ []) : 0 < (l.map Real.exp).sum := by
  induction l with
  | nil => exact absurd rfl h
  | cons a m ih =>
    rw [List.map_cons, List.sum_cons]
    cases m with
    | nil => simpa using Real.exp_pos a
    | cons b m2 =>
      have := ih (by simp)
      have := Real.exp_pos a
      linarith

/-- A fueled digit counter is exact on [10^p, 10^(p+1)) whenever the
fuel covers the number. -/
theorem digitCountF_eq_of_bounds :
    ∀ (fuel n p : ℕ), n ≤ fuel → 10 ^ p ≤ n → n < 10 ^ (p + 1) → digitCountF fuel n = p + 1 := by
  intro fuel
  induction fuel with
  | zero =>
    intro n p h hl hu
    have h10 : 0 < 10 ^ p := pow_pos (by norm_num) p
    omega
  | succ f ih =>
    intro n p h hl hu
    show (if n < 10 then 1 else digitCountF f (n / 10) + 1) = p + 1
    by_cases hn : n < 10
    · rw [if_pos hn]
      have hp : p = 0 := by
        by_contra hp0
        have h2 : 10 ≤ 10 ^ p := by
          calc (10:ℕ) = 10 ^ 1 := by norm_num
          _ ≤ 10 ^ p := Nat.pow_le_pow_right (by norm_num) (by omega)
        omega
      omega
    · rw [if_neg hn]
      cases p with
      | zero =>
        have : n < 10 := by simpa using hu
        omega
      | succ p =>
        have hl2 : 10 ^ p ≤ n / 10 := by
          rw [Nat.le_div_iff_mul_le (by norm_num : 0 < 10)]
          calc 10 ^ p * 10 = 10 ^ (p + 1) := (pow_succ 10 p).symm
          _ ≤ n := hl
        have hu2 : n / 10 < 10 ^ (p + 1) := by
          rw [Nat.div_lt_iff_lt_mul (by norm_num : 0 < 10)]
          calc n < 10 ^ (p + 1 + 1) := hu
          _ = 10 ^ (p + 1) * 10 := pow_succ 10 (p + 1)
        have hle : n / 10 ≤ f := by
          have : n / 10 < n := Nat.div_lt_self (by omega) (by norm_num)
          omega
        rw [ih (n / 10) p hle hl2 hu2]

/-- The printed mantissa of a nonzero value with precision p has exactly
p+1 decimal digits: it lies in [10^p, 10^(p+1)). -/
theorem sciMantissa_bounds (q : ℚ) (hq : q ≠ 0) (p : ℕ) :
    (10:ℤ) ^ p ≤ sciMantissa q p ∧ sciMantissa q p < 10 ^ (p + 1) := by
  have habs : 0 < |q| := abs_pos.mpr hq
  have hlow : ((10:ℕ):ℚ) ^ sciExponent q ≤ |q| := Int.zpow_log_le_self (by norm_num) habs
  have hupp : |q| < ((10:ℕ):ℚ) ^ (sciExponent q + 1) := Int.lt_zpow_succ_log_self (by norm_num) _
  have h10 : ((10:ℕ):ℚ) = (10:ℚ) := by norm_num
  rw [h10] at hlow hupp
  have hepos : (0:ℚ) < (10:ℚ) ^ sciExponent q := zpow_pos (by norm_num) _
  have hppos : (0:ℚ) < (10:ℚ) ^ (p : ℤ) := zpow_pos (by norm_num) _
  have hx_low : (10:ℚ) ^ (p : ℤ) ≤ |q| * 10 ^ (p : ℤ) / 10 ^ sciExponent q := by
    rw [le_div_iff hepos]
    calc (10:ℚ) ^ (p : ℤ) * 10 ^ sciExponent q = 10 ^ sciExponent q * 10 ^ (p : ℤ) := by ring
    _ ≤ |q| * 10 ^ (p : ℤ) := mul_le_mul_of_nonneg_right hlow (le_of_lt hppos)
  have hx_upp : |q| * 10 ^ (p : ℤ) / 10 ^ sciExponent q < (10:ℚ) ^ ((p : ℤ) + 1) := by
    rw [div_lt_iff hepos]
    calc |q| * 10 ^ (p : ℤ) < 10 ^ (sciExponent q + 1) * 10 ^ (p : ℤ) :=
      mul_lt_mul_of_pos_right hupp hppos
    _ = (10:ℚ) ^ ((p : ℤ) + 1) * 10 ^ sciExponent q := by
      rw [← zpow_add₀ (by norm_num : (10:ℚ) ≠ 0), ← zpow_add₀ (by norm_num : (10:ℚ) ≠ 0)]
      congr 1
      ring
  have hr_low : (10:ℤ) ^ p ≤ sciMantissaRaw q p := by
    unfold sciMantissaRaw
    rw [round_eq, Int.le_floor,
      show (((10:ℤ) ^ p : ℤ) : ℚ) = (10:ℚ) ^ (p : ℤ) from by
        push_cast
        exact (zpow_natCast (10:ℚ) p).symm]
    linarith
  have hnatz : (10:ℚ) ^ (p + 1) = (10:ℚ) ^ ((p : ℤ) + 1) := by
    rw [show (p : ℤ) + 1 = ((p + 1 : ℕ) : ℤ) from by push_cast; ring, zpow_natCast]
  have hr_upp : sciMantissaRaw q p ≤ 10 ^ (p + 1) := by
    unfold sciMantissaRaw
    rw [round_eq, ← Int.lt_add_one_iff, Int.floor_lt]
    push_cast
    rw [hnatz]
    linarith
  unfold sciMantissa
  by_cases hraw : sciMantissaRaw q p = 10 ^ (p + 1)
  · rw [if_pos hraw]
    have hpp : (0:ℤ) < 10 ^ p := pow_pos (by norm_num) p
    refine ⟨le_refl _, ?_⟩
    calc (10:ℤ) ^ p < 10 ^ p * 10 := by linarith
    _ = 10 ^ (p + 1) := (pow_succ 10 p).symm
  · rw [if_neg hraw]
    exact ⟨hr_low, lt_of_le_of_ne hr_upp hraw⟩

/-- Scientific formatting with precision p prints exactly p+1
significant digits for every nonzero value. -/
theorem sciSigDigits_eq (q : ℚ) (hq : q ≠ 0) (p : ℕ) : sciSigDigits q p = p + 1 := by
  rcases sciMantissa_bounds q hq p with ⟨hl, hu⟩
  have h0 : (0:ℤ) ≤ sciMantissa q p := le_trans (le_of_lt (pow_pos (by norm_num) p)) hl
  have hnl : 10 ^ p ≤ (sciMantissa q p).toNat := by
    have : ((10 ^ p : ℕ) : ℤ) ≤ sciMantissa q p := by push_cast; exact hl
    omega
  have hnu : (sciMantissa q p).toNat < 10 ^ (p + 1) := by
    have : sciMantissa q p < ((10 ^ (p + 1) : ℕ) : ℤ) := by push_cast; exact hu
    omega
  exact digitCountF_eq_of_bounds (sciMantissa q p).toNat (sciMantissa q p).toNat p
    (le_refl _) hnl hnu

/-- Unfolding lemma: maxCoeff on a nonempty list starts the visitor at
the first coefficient. -/
theorem maxCoeffL_cons (v : ℚ) (vs : List ℚ) :
    maxCoeffL (v :: vs) = some (maxCoeffGo vs v 0 1) := rfl

/-- Helper for witnesses: the two-point weight list of two halves sums
to one. -/
theorem listHalfHalfSum : ([(1:ℚ)/2, 1/2] : List ℚ).sum = 1 := by
  norm_num

/-- Helper for witnesses: the duplicated-value sample contains no
sentinel component. -/
theorem listOneEntriesLive :
    ∀ p ∈ ([((1:ℚ), 1/2), (1, 1/2)] : List (ℚ × ℚ)), p.1 ≠ sentinelValue := by
  norm_num [sentinelValue, DBL_MAX]

/-- Helper for witnesses: the two-value sample contains no sentinel
component. -/
theorem listOneTwoEntriesLive :
    ∀ p ∈ ([((1:ℚ), 1/2), (2, 1/2)] : List (ℚ × ℚ)), p.1 ≠ sentinelValue := by
  norm_num [sentinelValue, DBL_MAX]

/-- Helper for witnesses: a two-entry weight list is nonempty. -/
theorem listThirdsNeNil : ([(1:ℚ)/3, 2/3] : List ℚ) ≠ [] := by
  simp

/-- Helper for witnesses: five is a nonzero rational. -/
theorem ratFiveNeZero : (5:ℚ) ≠ 0 := by
  norm_num

/-- C2: Results::posteriorProbability returns exp(logW_i - logZ) for
each posterior point, and when logZ is the log-sum-exp of the logW_i
(the accumulated log evidence) the returned linear-space weights sum to
exactly 1, in particular to 1 within 10^-6. -/
theorem posteriorProbability_sums_to_one (logW : List ℝ) (logZ : ℝ) (hne : logW ≠ [])
    (hZ : logZ = Real.log ((logW.map Real.exp).sum)) :
    (posteriorProbabilityList logW logZ).sum = 1 ∧
      |(posteriorProbabilityList logW logZ).sum - 1| ≤ 1 / 1000000 := by
  have hpos := sum_map_exp_pos logW hne
  have h1 : (posteriorProbabilityList logW logZ).sum = 1 := by
    rw [posteriorProbabilityList_sum, hZ, Real.exp_log hpos, div_self (ne_of_gt hpos)]
  refine ⟨h1, ?_⟩
  rw [h1]
  norm_num

/-- Witness for C2 at the one-point sample logW = [0], logZ = 0. -/
theorem posteriorProbability_sums_to_one_witness :
    (posteriorProbabilityList [0] 0).sum = 1 ∧
      |(posteriorProbabilityList [0] 0).sum - 1| ≤ 1 / 1000000 :=
  posteriorProbability_sums_to_one [0] 0 (by simp) (by simp)

/-- C3: the median loop of Results::parameterEstimation, run on the
merged arrays with accumulator 0, returns the parameter value at the
first index at which the cumulative merged marginal probability reaches
0.5 (together with that cumulative mass), provided the merged marginal
probabilities sum to 1. -/
theorem median_first_reaches_half (xs ws : List ℚ) (hlen : xs.length = ws.length)
    (hsum : ws.sum = 1) :
    ∃ k < ws.length, medianLoop xs ws 0 = some (xs.getD k 0, (ws.take (k + 1)).sum) ∧
      1 / 2 ≤ (ws.take (k + 1)).sum ∧ ∀ j < k, (ws.take (j + 1)).sum < 1 / 2 := by
  rcases medianLoop_spec xs ws 0 hlen (by norm_num) (by rw [hsum]; norm_num)
    with ⟨k, hk, heq, hge, hlt⟩
  refine ⟨k, hk, by simpa using heq, by linarith, ?_⟩
  intro j hj
  have := hlt j hj
  linarith

/-- Witness for C3 at values (1,2) with weights (1/2,1/2). -/
theorem median_first_reaches_half_witness :
    ∃ k < ([(1:ℚ)/2, 1/2] : List ℚ).length,
      medianLoop [1, 2] [1/2, 1/2] 0 =
        some (([1, 2] : List ℚ).getD k 0, (([(1:ℚ)/2, 1/2] : List ℚ).take (k + 1)).sum) ∧
      1 / 2 ≤ (([(1:ℚ)/2, 1/2] : List ℚ).take (k + 1)).sum ∧
      ∀ j < k, (([(1:ℚ)/2, 1/2] : List ℚ).take (j + 1)).sum < 1 / 2 :=
  median_first_reaches_half [1, 2] [1/2, 1/2] rfl listHalfHalfSum

/-- C4 counterexample: on a posterior sample whose parameter components
genuinely equal -DBL_MAX (here twice, with weights 1/2 each), the
merging and compaction pass leaves both entries untouched, so the
surviving parameter values are NOT pairwise distinct and no merging of
equal values happens, contradicting the claim as stated for every
posterior sample. -/
theorem merge_pass_not_distinct_on_sentinel_input :
    compactPass (mergePass [((sentinelValue:ℚ), 1/2), (sentinelValue, 1/2)]).1
        (mergePass [((sentinelValue:ℚ), 1/2), (sentinelValue, 1/2)]).2 =
      some [((sentinelValue:ℚ), 1/2), (sentinelValue, 1/2)] ∧
    ¬ (([((sentinelValue:ℚ), 1/2), (sentinelValue, 1/2)].map Prod.fst).Nodup) := by
  constructor
  · simp [mergePass, mergePassF, compactPass]
  · simp

/-- C4 (amended): provided no parameter component equals -DBL_MAX (the
in-band duplicate flag), after the duplicate-merging and compaction pass
the surviving parameter values are pairwise distinct, each surviving
value carries the sum of the weights of all posterior points sharing
that value, and the total marginal probability mass is unchanged. -/
theorem merge_pass_spec_no_sentinel (ps : List (ℚ × ℚ))
    (hns : ∀ p ∈ ps, p.1 ≠ sentinelValue) :
    ∃ qs, compactPass (mergePass ps).1 (mergePass ps).2 = some qs ∧
      (qs.map Prod.fst).Nodup ∧ (∀ q ∈ qs, q.2 = sumEqVal q.1 ps) ∧ wsum qs = wsum ps := by
  have hszero : ∀ p ∈ ps, p.1 = sentinelValue → p.2 = 0 :=
    fun p hp hs => absurd hs (hns p hp)
  refine ⟨dropSentinels (mergePass ps).1, compactPass_mergePass_eq ps hns,
    mergePassF_nodup ps.length ps 0 (le_refl _),
    fun q hq => mergePassF_weights ps.length ps 0 (le_refl _) q hq, ?_⟩
  show wsum (dropSentinels (mergePass ps).1) = wsum ps
  unfold mergePass
  rw [wsum_dropSentinels _ (mergePassF_sentZero ps.length ps 0 hszero)]
  exact mergePassF_wsum ps.length ps 0

/-- Witness for the amended C4 at the sample with value 1 duplicated. -/
theorem merge_pass_spec_no_sentinel_witness :
    ∃ qs, compactPass (mergePass [((1:ℚ), 1/2), (1, 1/2)]).1
          (mergePass [((1:ℚ), 1/2), (1, 1/2)]).2 = some qs ∧
      (qs.map Prod.fst).Nodup ∧
      (∀ q ∈ qs, q.2 = sumEqVal q.1 [((1:ℚ), 1/2), (1, 1/2)]) ∧
      wsum qs = wsum [((1:ℚ), 1/2), (1, 1/2)] :=
  merge_pass_spec_no_sentinel [((1:ℚ), 1/2), (1, 1/2)] listOneEntriesLive

/-- C5: Results::parameterEstimation uses -DBL_MAX as an in-band
duplicate flag.  Any entry whose parameter component equals -DBL_MAX is
skipped by the duplicate-merging loops (it is left in place with its
value and weight untouched), and whenever at least one duplicate was
flagged in the dimension, the compaction step writes only the
non-sentinel entries, so every sentinel entry -- freshly flagged or a
genuine input value -- is removed together with its probability mass:
the kept mass falls short of the merged total by exactly the mass
carried by sentinel entries. -/
theorem sentinel_skipped_and_removed (ps : List (ℚ × ℚ)) (k : ℕ) (q : ℚ × ℚ)
    (hk : ps.get? k = some q) (hqs : q.1 = sentinelValue) :
    (mergePass ps).1.get? k = some q ∧
      ((mergePass ps).2 > 0 →
        (∀ r ∈ compactKept (mergePass ps).1 (mergePass ps).2, r.1 ≠ sentinelValue) ∧
        wsum (compactKept (mergePass ps).1 (mergePass ps).2) +
            sumEqVal sentinelValue (mergePass ps).1 = wsum (mergePass ps).1) := by
  refine ⟨mergePassF_get_sent ps.length ps 0 k q hk hqs, fun hpos => ⟨?_, ?_⟩⟩
  · intro r hr
    rw [compactKept_eq_dropSentinels] at hr
    exact ((mem_dropSentinels r _).mp hr).2
  · rw [compactKept_eq_dropSentinels]
    exact wsum_dropSentinels_add _

/-- Witness for C5: a genuine -DBL_MAX component with weight 1/5, next
to a duplicated value 1. -/
theorem sentinel_skipped_and_removed_witness :
    (mergePass [((sentinelValue:ℚ), 1/5), (1, 2/5), (1, 2/5)]).1.get? 0 =
        some ((sentinelValue:ℚ), 1/5) ∧
      ((mergePass [((sentinelValue:ℚ), 1/5), (1, 2/5), (1, 2/5)]).2 > 0 →
        (∀ r ∈ compactKept (mergePass [((sentinelValue:ℚ), 1/5), (1, 2/5), (1, 2/5)]).1
            (mergePass [((sentinelValue:ℚ), 1/5), (1, 2/5), (1, 2/5)]).2,
          r.1 ≠ sentinelValue) ∧
        wsum (compactKept (mergePass [((sentinelValue:ℚ), 1/5), (1, 2/5), (1, 2/5)]).1
            (mergePass [((sentinelValue:ℚ), 1/5), (1, 2/5), (1, 2/5)]).2) +
            sumEqVal sentinelValue (mergePass [((sentinelValue:ℚ), 1/5), (1, 2/5), (1, 2/5)]).1 =
          wsum (mergePass [((sentinelValue:ℚ), 1/5), (1, 2/5), (1, 2/5)]).1) :=
  sentinel_skipped_and_removed [((sentinelValue:ℚ), 1/5), (1, 2/5), (1, 2/5)] 0
    ((sentinelValue:ℚ), 1/5) rfl rfl

/-- C6: on a posterior sample with no -DBL_MAX component, the
expectation computed at Results.cpp line 187 -- the sum over the merged
distinct parameter values of each value times its merged marginal
probability (dsum of the merged arrays) -- equals the sum of value times
weight over the whole input sample. -/
theorem mean_preserved_by_merging (ps : List (ℚ × ℚ))
    (hns : ∀ p ∈ ps, p.1 ≠ sentinelValue) :
    ∃ qs, compactPass (mergePass ps).1 (mergePass ps).2 = some qs ∧
      dsum qs = dsum ps := by
  have hszero : ∀ p ∈ ps, p.1 = sentinelValue → p.2 = 0 :=
    fun p hp hs => absurd hs (hns p hp)
  refine ⟨dropSentinels (mergePass ps).1, compactPass_mergePass_eq ps hns, ?_⟩
  show dsum (dropSentinels (mergePass ps).1) = dsum ps
  unfold mergePass
  rw [dsum_dropSentinels _ (mergePassF_sentZero ps.length ps 0 hszero)]
  exact mergePassF_dsum ps.length ps 0

/-- Witness for C6 at the two-point sample (1, 1/2), (2, 1/2). -/
theorem mean_preserved_by_merging_witness :
    ∃ qs, compactPass (mergePass [((1:ℚ), 1/2), (2, 1/2)]).1
          (mergePass [((1:ℚ), 1/2), (2, 1/2)]).2 = some qs ∧
      dsum qs = dsum [((1:ℚ), 1/2), (2, 1/2)] :=
  mean_preserved_by_merging [((1:ℚ), 1/2), (2, 1/2)] listOneTwoEntriesLive

/-- C7: the mode of Results.cpp lines 207-215 is the parameter value at
the index of the maximal merged marginal probability, and when several
entries attain the maximum, Eigen maxCoeff (which replaces its running
best only on strict increase) returns the smallest such index: every
earlier entry is strictly below the maximum. -/
theorem mode_is_first_argmax (xs ws : List ℚ) (hne : ws ≠ []) :
    ∃ i < ws.length, maxCoeffL ws = some (ws.getD i 0, i) ∧
      modeValueOf xs ws = some (xs.getD i 0) ∧
      (∀ w ∈ ws, w ≤ ws.getD i 0) ∧ ∀ j < i, ws.getD j 0 < ws.getD i 0 := by
  cases ws with
  | nil => exact absurd rfl hne
  | cons v vs =>
    rcases maxCoeffGo_spec vs v 0 1 with ⟨heq, hle⟩ | ⟨k, hk, heq, hlt, hle, hfirst⟩
    · refine ⟨0, by simp, ?_, ?_, ?_, fun j hj => absurd hj (by omega)⟩
      · rw [maxCoeffL_cons, heq, List.getD_cons_zero]
      · unfold modeValueOf
        rw [maxCoeffL_cons, heq]
        rfl
      · intro w hw
        rw [List.getD_cons_zero]
        rcases List.mem_cons.mp hw with h1 | h1
        · exact le_of_eq h1
        · exact hle w h1
    · refine ⟨k + 1, by simpa using Nat.succ_lt_succ hk, ?_, ?_, ?_, ?_⟩
      · rw [maxCoeffL_cons, heq]
        simp only [List.getD_cons_succ, Option.some.injEq, Prod.mk.injEq]
        exact ⟨trivial, by omega⟩
      · unfold modeValueOf
        rw [maxCoeffL_cons, heq]
        simp only [Option.map_some']
        rw [show (1:ℕ) + k = k + 1 from Nat.add_comm 1 k]
      · intro w hw
        rw [List.getD_cons_succ]
        rcases List.mem_cons.mp hw with h1 | h1
        · rw [h1]
          exact le_of_lt hlt
        · exact hle w h1
      · intro j hj
        cases j with
        | zero =>
          rw [List.getD_cons_zero, List.getD_cons_succ]
          exact hlt
        | succ j =>
          rw [List.getD_cons_succ, List.getD_cons_succ]
          exact hfirst j (by omega)

/-- Witness for C7 at values (5,6) with weights (1/3,2/3). -/
theorem mode_is_first_argmax_witness :
    ∃ i < ([(1:ℚ)/3, 2/3] : List ℚ).length,
      maxCoeffL [(1:ℚ)/3, 2/3] = some (([(1:ℚ)/3, 2/3] : List ℚ).getD i 0, i) ∧
      modeValueOf [5, 6] [(1:ℚ)/3, 2/3] = some (([(5:ℚ), 6] : List ℚ).getD i 0) ∧
      (∀ w ∈ ([(1:ℚ)/3, 2/3] : List ℚ), w ≤ ([(1:ℚ)/3, 2/3] : List ℚ).getD i 0) ∧
      ∀ j < i, ([(1:ℚ)/3, 2/3] : List ℚ).getD j 0 < ([(1:ℚ)/3, 2/3] : List ℚ).getD i 0 :=
  mode_is_first_argmax [5, 6] [(1:ℚ)/3, 2/3] listThirdsNeNil

/-- C1 (code bug): evaluation of the per-dimension pipeline at the
posterior sample with sorted values (0, 1), normalized weights
(2/5, 3/5) and the default credible level 68.27.  The median loop
leaves totalProbability = 1, so the credible-interval loop of
Results.cpp line 237 tests 1 < 0.6827, never runs its body, and lines
261-262 read the uninitialized limitParameterLeft and
limitParameterRight: the two credible-interval columns are undefined
(none), instead of the offsets (1, 0) of the shortest 68.27% interval
around the mode. -/
theorem ciColumns_undefined_at_failing_input :
    parameterEstimationDim ([0, 1] : List ℚ) [2/5, 3/5] (6827/100) =
      some (3/5, 1, 1, none, none) := by
  norm_num [parameterEstimationDim, sortPairs, List.insertionSort, List.orderedInsert,
    mergePass, mergePassF, flagEqVal, sumEqVal, countEqVal, compactPass, compactKept,
    dropSentinels, dsum, medianLoop, maxCoeffL, maxCoeffGo, minCoeffL, minCoeffGo,
    ciLoopF, sentinelValue, DBL_MAX]

/-- C9 (code bug): evaluation of the per-dimension pipeline at the
posterior sample with sorted values (0, 1, 2), normalized weights
(3/10, 3/10, 2/5) and credible level 95.  The mode is at the last index
(2), the credible-interval loop is entered (0.6 < 0.95), and its first
iteration reads marginalDistribution(3) and parameterComponent(3), one
past the end of the length-3 merged arrays: the embedded Option-valued
indexing yields none. -/
theorem ci_loop_out_of_bounds_at_failing_input :
    parameterEstimationDim ([0, 1, 2] : List ℚ) [3/10, 3/10, 2/5] 95 = none := by
  norm_num [parameterEstimationDim, sortPairs, List.insertionSort, List.orderedInsert,
    mergePass, mergePassF, flagEqVal, sumEqVal, countEqVal, compactPass, compactKept,
    dropSentinels, dsum, medianLoop, maxCoeffL, maxCoeffGo, minCoeffL, minCoeffGo,
    ciLoopF, sentinelValue, DBL_MAX]

/-- C8 counterexample: formatting the value 1 with the stream settings
installed by the Results writers (scientific, precision 9) prints
1.000000000e+00, which has 10 significant digits, not 9. -/
theorem sci_precision9_not_nine_digits :
    sciSigDigits 1 outputPrecision ≠ 9 ∧ sciSigDigits 1 outputPrecision = 10 := by
  have h := sciSigDigits_eq 1 (by norm_num) outputPrecision
  constructor
  · rw [h]
    norm_num [outputPrecision]
  · rw [h]
    norm_num [outputPrecision]

/-- C8 (amended): every nonzero numeric value written by the Results
output operations, which all install scientific notation with
setprecision(9), is printed with 9 digits after the decimal point, i.e.
with 10 significant digits. -/
theorem sci_precision9_ten_sig_digits (q : ℚ) (hq : q ≠ 0) :
    sciSigDigits q outputPrecision = 10 := by
  rw [sciSigDigits_eq q hq outputPrecision]
  norm_num [outputPrecision]

/-- Witness for the amended C8 at the value 5. -/
theorem sci_precision9_ten_sig_digits_witness : sciSigDigits 5 outputPrecision = 10 :=
  sci_precision9_ten_sig_digits 5 ratFiveNeZero

/-- C10: Results::posteriorProbability and Results::parameterEstimation
are read-only over the sampler state: both operations return the state
they were given, because every write in the C++ targets a local array
(the posterior distribution is built afresh at line 66-67, and the
per-dimension processing works on the copies made at lines 115-116). -/
theorem results_readonly_state (s : NestedSamplerState) (credibleLevel : ℝ) :
    (posteriorProbabilityS s).2 = s ∧ (parameterEstimationS s credibleLevel).2 = s :=
  ⟨rfl, rfl⟩
